import Mathlib

/-!
Shallow embedding of the two fixed-capacity binary heaps of this repository
(src/data-structures/heap/max-heap.cpp and src/data-structures/heap/min-heap.cpp).

The two C++ classes `MaxHeap` and `MinHeap` are textually parallel and differ
only in the direction of the element comparisons, so the embedding defines one
family of operations parameterized by a Boolean comparison
`before a b` meaning "a must sit above b" (for `MaxHeap` this is `a > b`,
for `MinHeap` it is `a < b`), and instantiates it twice.

State: the C++ fields are `heapSize` (capacity), `realSize` (current count)
and `heap` (a `vector<int>` of `heapSize + 1` slots, 1-based, slot 0 a dummy).
Storage is embedded as a total function `Nat → Int`; the constructor
zero-fills it exactly as `vector::resize` does.

The bubble-up and bubble-down loops are embedded with an explicit structural
fuel argument so that every definition reduces inside the kernel; the fuel
passed by the wrappers (`index` for bubble-up, `n` for bubble-down) is an
upper bound on the number of loop iterations of the C++ `while` loops, which
strictly halve the index (bubble-up) or at least increment it toward `n`
(bubble-down) at every iteration.

The C++ code signals the full-heap and empty-heap conditions by printing a
diagnostic to `cout` and returning early (with sentinel values `INT_MAX` /
`INT_MIN` for `peek` / `pop`).  The embedding models the printed diagnostic
plus early return as an `Option HeapError` component of the result, and keeps
the sentinel return values exactly as the source computes them.
-/

namespace HeapModel

/-- The value of `INT_MAX` from `<climits>` on the 32-bit `int` used by the source. -/
def INT_MAX : Int := 2147483647

/-- The value of `INT_MIN` from `<climits>` on the 32-bit `int` used by the source. -/
def INT_MIN : Int := -2147483648

/-- The two failure conditions of the component.  In the C++ source each is
signalled by printing a fixed diagnostic line to `cout` and returning early;
this type is the embedding of that observable diagnostic. -/
inductive HeapError where
  /-- Models the source printing "Added too many Elements!" in `add`. -/
  | capacityExceeded
  /-- Models the source printing the missing-element diagnostic in `peek` / `pop`. -/
  | emptyHeap
deriving DecidableEq

/-- The heap state: capacity (`heapSize`), current count (`realSize`) and the
backing storage (`heap`), 1-based with a dummy slot 0, as in the C++ classes. -/
structure Heap where
  heapSize : Nat
  realSize : Nat
  heap : Nat → Int

/-- The constructor `MaxHeap(int capacity)` / `MinHeap(int capacity)`:
`heap.resize(heapSize + 1)` zero-fills the vector and `heap[0] = 0` keeps the
dummy slot at 0; `realSize` starts at 0. -/
def mkHeap (capacity : Nat) : Heap :=
  { heapSize := capacity, realSize := 0, heap := fun _ => 0 }

/-- A single store `heap[i] = v` on the backing storage. -/
def writeSlot (f : Nat → Int) (i : Nat) (v : Int) : Nat → Int :=
  fun k => if k = i then v else f k

/-- The C++ `swap(heap[i], heap[j])` on the backing storage. -/
def swapSlots (f : Nat → Int) (i j : Nat) : Nat → Int :=
  writeSlot (writeSlot f i (f j)) j (f i)

/-- The bubble-up `while` loop of `add`
(`while (index > 1 && heap[index] > heap[parent])` in `MaxHeap`,
`while (index > 1 && heap[index] < heap[parent])` in `MinHeap`), with
`before` the comparison that makes the child beat its parent, and a
structural fuel bound on the iteration count.  Each iteration with
`index > 1` moves to `index / 2 < index`, so `fuel = index` iterations
always suffice. -/
def bubbleUpFuel (before : Int → Int → Bool) : Nat → (Nat → Int) → Nat → (Nat → Int)
  | 0, f, _ => f
  | fuel + 1, f, index =>
    if 1 < index ∧ before (f index) (f (index / 2)) = true then
      bubbleUpFuel before fuel (swapSlots f index (index / 2)) (index / 2)
    else f

/-- The bubble-up loop of `add`, entered at the freshly written `index`. -/
def bubbleUp (before : Int → Int → Bool) (f : Nat → Int) (index : Nat) : Nat → Int :=
  bubbleUpFuel before index f index

/-- The bubble-down `while` loop of `pop`
(`while (index <= realSize / 2)`), with `n` the current `realSize`,
`before` the comparison that makes a child beat its parent
(`heap[index] < heap[left]` in `MaxHeap` is `before (f left) (f index)`),
and a structural fuel bound on the iteration count.
Each iteration moves `index` to a child `2 * index` or `2 * index + 1`,
which strictly increases it toward `n`, so `fuel = n` always suffices.
The loop is only ever entered at `index = 1`; the `1 ≤ index` conjunct is
the invariant `index ≥ 1` of the C++ loop made explicit. -/
def bubbleDownFuel (before : Int → Int → Bool) (n : Nat) :
    Nat → (Nat → Int) → Nat → (Nat → Int)
  | 0, f, _ => f
  | fuel + 1, f, index =>
    if 1 ≤ index ∧ index ≤ n / 2 then
      -- the C++ locals are left = index * 2 and right = index * 2 + 1
      if index * 2 + 1 > n then
        -- only the left child exists
        if before (f (index * 2)) (f index) = true then
          bubbleDownFuel before n fuel (swapSlots f index (index * 2)) (index * 2)
        else f
      else
        -- both children exist
        if before (f (index * 2)) (f index) = true ∨ before (f (index * 2 + 1)) (f index) = true then
          if before (f (index * 2)) (f (index * 2 + 1)) = true then
            bubbleDownFuel before n fuel (swapSlots f index (index * 2)) (index * 2)
          else
            bubbleDownFuel before n fuel (swapSlots f index (index * 2 + 1)) (index * 2 + 1)
        else f
    else f

/-- The bubble-down loop of `pop`, with `n` the `realSize` after the decrement. -/
def bubbleDown (before : Int → Int → Bool) (n : Nat) (f : Nat → Int) (index : Nat) :
    Nat → Int :=
  bubbleDownFuel before n n f index

/-- The `add` member function.  The source increments `realSize`, reverts the
increment and prints a diagnostic when it exceeds `heapSize` (modelled as
`HeapError.capacityExceeded` with the state returned untouched), and otherwise
writes the element at the new last slot and bubbles it up. -/
def add (before : Int → Int → Bool) (element : Int) (s : Heap) : Heap × Option HeapError :=
  if s.realSize + 1 > s.heapSize then
    (s, some HeapError.capacityExceeded)
  else
    ({ s with
        realSize := s.realSize + 1,
        heap := bubbleUp before (writeSlot s.heap (s.realSize + 1) element)
          (s.realSize + 1) },
      none)

/-- The `peek` member function (identical in both classes): on an empty heap it
prints a diagnostic (modelled as `HeapError.emptyHeap`) and returns the
sentinel `INT_MAX`; otherwise it returns `heap[1]`.  It is `const` in the
source, so it takes no state transition. -/
def peek (s : Heap) : Int × Option HeapError :=
  if s.realSize < 1 then (INT_MAX, some HeapError.emptyHeap)
  else (s.heap 1, none)

/-- The `pop` member function: on an empty heap it prints a diagnostic
(modelled as `HeapError.emptyHeap`) and returns the variant-specific
`sentinel` (`INT_MIN` for `MaxHeap`, `INT_MAX` for `MinHeap`) with the state
untouched; otherwise it saves `heap[1]`, moves `heap[realSize]` to the root,
decrements `realSize` and bubbles the root down. -/
def pop (before : Int → Int → Bool) (sentinel : Int) (s : Heap) :
    Int × Heap × Option HeapError :=
  if s.realSize < 1 then (sentinel, s, some HeapError.emptyHeap)
  else
    (s.heap 1,
      { s with
          realSize := s.realSize - 1,
          heap := bubbleDown before (s.realSize - 1)
            (writeSlot s.heap 1 (s.heap s.realSize)) 1 },
      none)

/-- The `size` member function: returns `realSize`. -/
def size (s : Heap) : Nat := s.realSize

/-- The body of the `toString` printing loop
(`for (int i = 1; i <= realSize; ++i) { oss << heap[i]; if (i < realSize) oss << , }`),
iterating `rem` times starting at position `i`. -/
def tsLoop (f : Nat → Int) (n : Nat) : Nat → Nat → String
  | _, 0 => ""
  | i, rem + 1 =>
    ToString.toString (f i) ++ (if i < n then "," else "") ++ tsLoop f n (i + 1) rem

/-- The `toString` member function (identical in both classes): the string
"No element!" on an empty heap, otherwise the slots `1 .. realSize` in array
(level) order, comma separated and bracketed. -/
def Heap.toString (s : Heap) : String :=
  if s.realSize = 0 then "No element!"
  else "[" ++ tsLoop s.heap s.realSize 1 s.realSize ++ "]"

/-- The `MaxHeap` comparison: the child beats its parent when it is strictly
greater (`heap[index] > heap[parent]` in `add`, `heap[index] < heap[left]`
in `pop`). -/
def maxBefore : Int → Int → Bool := fun a b => decide (a > b)

/-- The `MinHeap` comparison: the child beats its parent when it is strictly
smaller. -/
def minBefore : Int → Int → Bool := fun a b => decide (a < b)

/-- The `MaxHeap::add` member function. -/
def MaxHeap.add (element : Int) (s : Heap) : Heap × Option HeapError :=
  HeapModel.add maxBefore element s

/-- The `MaxHeap::peek` member function. -/
def MaxHeap.peek (s : Heap) : Int × Option HeapError := HeapModel.peek s

/-- The `MaxHeap::pop` member function (empty sentinel `INT_MIN`). -/
def MaxHeap.pop (s : Heap) : Int × Heap × Option HeapError :=
  HeapModel.pop maxBefore INT_MIN s

/-- The `MaxHeap::size` member function. -/
def MaxHeap.size (s : Heap) : Nat := HeapModel.size s

/-- The `MaxHeap::toString` member function. -/
def MaxHeap.toString (s : Heap) : String := Heap.toString s

/-- The `MinHeap::add` member function. -/
def MinHeap.add (element : Int) (s : Heap) : Heap × Option HeapError :=
  HeapModel.add minBefore element s

/-- The `MinHeap::peek` member function. -/
def MinHeap.peek (s : Heap) : Int × Option HeapError := HeapModel.peek s

/-- The `MinHeap::pop` member function (empty sentinel `INT_MAX`). -/
def MinHeap.pop (s : Heap) : Int × Heap × Option HeapError :=
  HeapModel.pop minBefore INT_MAX s

/-- The `MinHeap::size` member function. -/
def MinHeap.size (s : Heap) : Nat := HeapModel.size s

/-- The `MinHeap::toString` member function. -/
def MinHeap.toString (s : Heap) : String := Heap.toString s

/-- A mutating call on a heap: `add(e)` or `pop()`. -/
inductive Op where
  | add (element : Int)
  | pop
deriving DecidableEq

/-- One mutating call, discarding the returned value and diagnostic. -/
def step (before : Int → Int → Bool) (sentinel : Int) (s : Heap) : Op → Heap
  | Op.add e => (add before e s).1
  | Op.pop => (pop before sentinel s).2.1

/-- A sequence of mutating calls, applied left to right. -/
def runOps (before : Int → Int → Bool) (sentinel : Int) (ops : List Op) (s : Heap) : Heap :=
  ops.foldl (step before sentinel) s

/-- Repeatedly call `pop`, collecting the returned values. -/
def extractList (before : Int → Int → Bool) (sentinel : Int) : Nat → Heap → List Int
  | 0, _ => []
  | k + 1, s =>
    (pop before sentinel s).1 :: extractList before sentinel k (pop before sentinel s).2.1

/-- Call `add` once per list element, left to right, discarding diagnostics. -/
def addAll (before : Int → Int → Bool) (xs : List Int) (s : Heap) : Heap :=
  xs.foldl (fun t e => (add before e t).1) s

/-- The slots `1 .. n` of a storage function, in array (level) order. -/
def listOf (f : Nat → Int) (n : Nat) : List Int := (List.range' 1 n).map f

/-- The heap-property invariant on a raw storage function: every slot
`i ∈ [2, n]` does not beat its parent slot `i / 2`. -/
def heapPropN (before : Int → Int → Bool) (f : Nat → Int) (n : Nat) : Prop :=
  ∀ i, 2 ≤ i → i ≤ n → before (f i) (f (i / 2)) = false

/-- The heap-property invariant of a heap state. -/
def heapProp (before : Int → Int → Bool) (s : Heap) : Prop :=
  heapPropN before s.heap s.realSize

/-- Restriction of `runOps` bookkeeping: the number of successful `add` calls
and of successful `pop` calls in a sequence of mutating calls run from `s`.
An `add` call succeeds unless the incremented `realSize` exceeds `heapSize`;
a `pop` call succeeds unless the heap is empty — exactly the two guards of
the source. -/
def countSucc (before : Int → Int → Bool) (sentinel : Int) : List Op → Heap → Nat × Nat
  | [], _ => (0, 0)
  | Op.add e :: ops, s =>
    if s.realSize + 1 > s.heapSize then
      countSucc before sentinel ops (step before sentinel s (Op.add e))
    else
      ((countSucc before sentinel ops (step before sentinel s (Op.add e))).1 + 1,
        (countSucc before sentinel ops (step before sentinel s (Op.add e))).2)
  | Op.pop :: ops, s =>
    if s.realSize < 1 then
      countSucc before sentinel ops (step before sentinel s Op.pop)
    else
      ((countSucc before sentinel ops (step before sentinel s Op.pop)).1,
        (countSucc before sentinel ops (step before sentinel s Op.pop)).2 + 1)

/-- A call of the `const` member `peek` on a heap object: the returned pair
together with the object afterwards — unchanged, because the member is
declared `const` in the source. -/
def peekCall (s : Heap) : (Int × Option HeapError) × Heap := (peek s, s)

/-- Comma-separated concatenation of a list of strings: the specification-side
rendering of the `toString` printing loop. -/
def joinComma : List String → String
  | [] => ""
  | [x] => x
  | x :: y :: xs => x ++ "," ++ joinComma (y :: xs)

/-- Any call of the public interface: `add(e)`, `pop()`, `peek()`, `size()`
or `toString()`. -/
inductive QOp where
  | add (element : Int)
  | pop
  | peek
  | size
  | display
deriving DecidableEq

/-- Everything a caller observes from one call: the returned value and the
printed diagnostic, if any. -/
inductive Obs where
  | addRes (diag : Option HeapError)
  | popRes (value : Int) (diag : Option HeapError)
  | peekRes (value : Int) (diag : Option HeapError)
  | sizeRes (value : Nat)
  | displayRes (out : String)
deriving DecidableEq

/-- One call of the public interface: the state afterwards and the observation. -/
def qstep (before : Int → Int → Bool) (sentinel : Int) (s : Heap) : QOp → Heap × Obs
  | QOp.add e => ((add before e s).1, Obs.addRes (add before e s).2)
  | QOp.pop =>
    ((pop before sentinel s).2.1,
      Obs.popRes (pop before sentinel s).1 (pop before sentinel s).2.2)
  | QOp.peek => (s, Obs.peekRes (peek s).1 (peek s).2)
  | QOp.size => (s, Obs.sizeRes (size s))
  | QOp.display => (s, Obs.displayRes (Heap.toString s))

/-- The observations of a sequence of public-interface calls, left to right. -/
def qrun (before : Int → Int → Bool) (sentinel : Int) : List QOp → Heap → List Obs
  | [], _ => []
  | op :: ops, s =>
    (qstep before sentinel s op).2 :: qrun before sentinel ops (qstep before sentinel s op).1

/-- Agreement of two heap states on capacity, count and the live slots
`1 .. count`; slot 0 and the stale slots beyond `count` may differ. -/
def EquivUpTo (s t : Heap) : Prop :=
  s.heapSize = t.heapSize ∧ s.realSize = t.realSize ∧
    ∀ i, 1 ≤ i → i ≤ s.realSize → s.heap i = t.heap i

/-- Agreement of two heap states on count and the live slots `1 .. count`
only, with the capacities unconstrained: the hypothesis of claim C10 exactly
as stated. -/
def AgreeCountSlots (s t : Heap) : Prop :=
  s.realSize = t.realSize ∧ ∀ i, 1 ≤ i → i ≤ s.realSize → s.heap i = t.heap i

/-! ### Reading swapped and written storage -/

theorem writeSlot_self (f : Nat → Int) (i : Nat) (v : Int) : writeSlot f i v i = v := by
  simp [writeSlot]

theorem writeSlot_other (f : Nat → Int) (i : Nat) (v : Int) (k : Nat) (h : k ≠ i) :
    writeSlot f i v k = f k := by
  simp [writeSlot, h]

theorem swapSlots_right (f : Nat → Int) (i j : Nat) : swapSlots f i j j = f i := by
  simp [swapSlots, writeSlot]

theorem swapSlots_left (f : Nat → Int) (i j : Nat) (h : i ≠ j) : swapSlots f i j i = f j := by
  simp [swapSlots, writeSlot, h]

theorem swapSlots_other (f : Nat → Int) (i j k : Nat) (h1 : k ≠ i) (h2 : k ≠ j) :
    swapSlots f i j k = f k := by
  simp [swapSlots, writeSlot, h1, h2]

/-! ### Laws of the strict comparisons

Both instantiations of `before` (`a > b` for `MaxHeap`, `a < b` for `MinHeap`)
are strict linear orders; asymmetry and this negative transitivity are all the
invariant proofs need. -/

/-- Asymmetry of the comparison used by the source. -/
def BAsymm (before : Int → Int → Bool) : Prop :=
  ∀ a b, before a b = true → before b a = false

/-- Transitivity of the complement of the comparison used by the source. -/
def BTrans (before : Int → Int → Bool) : Prop :=
  ∀ a b c, before b a = false → before c b = false → before c a = false

theorem BAsymm.irrefl {before : Int → Int → Bool} (hA : BAsymm before) (a : Int) :
    before a a = false := by
  cases h : before a a with
  | false => rfl
  | true => exact absurd (hA a a h) (by simp [h])

theorem beats_trans_not {before : Int → Int → Bool} (hT : BTrans before) {j c d : Int}
    (h1 : before d j = true) (h2 : before d c = false) : before c j = true := by
  cases h : before c j with
  | true => rfl
  | false => exact absurd (hT j c d h h2) (by simp [h1])

theorem maxBefore_asymm : BAsymm maxBefore := by
  intro a b h
  simp only [maxBefore, decide_eq_true_eq] at h
  simp only [maxBefore, decide_eq_false_iff_not]
  omega

theorem maxBefore_trans : BTrans maxBefore := by
  intro a b c h1 h2
  simp only [maxBefore, decide_eq_false_iff_not] at *
  omega

theorem minBefore_asymm : BAsymm minBefore := by
  intro a b h
  simp only [minBefore, decide_eq_true_eq] at h
  simp only [minBefore, decide_eq_false_iff_not]
  omega

theorem minBefore_trans : BTrans minBefore := by
  intro a b c h1 h2
  simp only [minBefore, decide_eq_false_iff_not] at *
  omega

/-! ### Permutation facts about `listOf` -/

/-- The index transposition underlying `swapSlots`. -/
def swapIdx (i j k : Nat) : Nat :=
  if k = i then j else if k = j then i else k

theorem swapSlots_apply (f : Nat → Int) (i j k : Nat) :
    swapSlots f i j k = f (swapIdx i j k) := by
  unfold swapIdx
  by_cases h2 : k = j
  · subst h2
    rw [swapSlots_right]
    by_cases h1 : k = i <;> simp [h1]
  · by_cases h1 : k = i
    · subst h1
      rw [swapSlots_left f k j h2]
      simp
    · rw [swapSlots_other f i j k h1 h2]
      simp [h1, h2]

theorem swapIdx_invol (i j k : Nat) : swapIdx i j (swapIdx i j k) = k := by
  unfold swapIdx
  split_ifs <;> omega

theorem swapIdx_bounds (i j k n : Nat) (hi1 : 1 ≤ i) (hi2 : i ≤ n) (hj1 : 1 ≤ j)
    (hj2 : j ≤ n) (hk1 : 1 ≤ k) (hk2 : k ≤ n) :
    1 ≤ swapIdx i j k ∧ swapIdx i j k ≤ n := by
  unfold swapIdx
  split_ifs <;> omega

theorem map_swapIdx_perm (i j n : Nat) (hi1 : 1 ≤ i) (hi2 : i ≤ n) (hj1 : 1 ≤ j)
    (hj2 : j ≤ n) : List.Perm ((List.range' 1 n).map (swapIdx i j)) (List.range' 1 n) := by
  apply List.perm_of_nodup_nodup_toFinset_eq
  · refine List.Nodup.map ?_ (List.nodup_range' 1 n)
    intro a b hab
    have h := congrArg (swapIdx i j) hab
    rwa [swapIdx_invol, swapIdx_invol] at h
  · exact List.nodup_range' 1 n
  · ext x
    simp only [List.mem_toFinset, List.mem_map, List.mem_range'_1]
    constructor
    · rintro ⟨y, ⟨hy1, hy2⟩, rfl⟩
      have h := swapIdx_bounds i j y n hi1 hi2 hj1 hj2 hy1 (by omega)
      omega
    · intro hx
      refine ⟨swapIdx i j x, ?_, swapIdx_invol i j x⟩
      have h := swapIdx_bounds i j x n hi1 hi2 hj1 hj2 hx.1 (by omega)
      omega

theorem listOf_swapSlots_perm (f : Nat → Int) (i j n : Nat) (hi1 : 1 ≤ i) (hi2 : i ≤ n)
    (hj1 : 1 ≤ j) (hj2 : j ≤ n) : List.Perm (listOf (swapSlots f i j) n) (listOf f n) := by
  unfold listOf
  have h1 : (List.range' 1 n).map (swapSlots f i j)
      = ((List.range' 1 n).map (swapIdx i j)).map f := by
    rw [List.map_map]
    exact List.map_congr_left fun k _ => swapSlots_apply f i j k
  rw [h1]
  exact (map_swapIdx_perm i j n hi1 hi2 hj1 hj2).map f

theorem listOf_congr {f g : Nat → Int} (n : Nat) (h : ∀ i, 1 ≤ i → i ≤ n → f i = g i) :
    listOf f n = listOf g n := by
  unfold listOf
  refine List.map_congr_left fun k hk => ?_
  rw [List.mem_range'_1] at hk
  exact h k hk.1 (by omega)

theorem listOf_zero (f : Nat → Int) : listOf f 0 = [] := by
  simp [listOf]

theorem listOf_succ (f : Nat → Int) (n : Nat) :
    listOf f (n + 1) = listOf f n ++ [f (n + 1)] := by
  unfold listOf
  rw [List.range'_1_concat]
  simp [Nat.add_comm]

theorem listOf_one (f : Nat → Int) : listOf f 1 = [f 1] := by
  simp [listOf]

theorem listOf_head (f : Nat → Int) (n : Nat) (h : 1 ≤ n) :
    listOf f n = f 1 :: (List.range' 2 (n - 1)).map f := by
  obtain ⟨k, rfl⟩ := Nat.exists_eq_add_of_le' h
  unfold listOf
  rw [List.range'_succ]
  simp

/-! ### The loops permute the live slots and leave the rest alone -/

theorem bubbleUpFuel_perm (before : Int → Int → Bool) (n : Nat) :
    ∀ (fuel : Nat) (f : Nat → Int) (j : Nat), 1 ≤ j → j ≤ n →
    List.Perm (listOf (bubbleUpFuel before fuel f j) n) (listOf f n) := by
  intro fuel
  induction fuel with
  | zero => intro f j _ _; exact List.Perm.refl _
  | succ fuel ih =>
    intro f j h1 h2
    simp only [bubbleUpFuel]
    split_ifs with hc
    · obtain ⟨hj, -⟩ := hc
      refine (ih _ (j / 2) (by omega) (by omega)).trans ?_
      exact listOf_swapSlots_perm f j (j / 2) n h1 h2 (by omega) (by omega)
    · exact List.Perm.refl _

theorem bubbleDownFuel_perm (before : Int → Int → Bool) (n : Nat) :
    ∀ (fuel : Nat) (f : Nat → Int) (j : Nat), 1 ≤ j →
    List.Perm (listOf (bubbleDownFuel before n fuel f j) n) (listOf f n) := by
  intro fuel
  induction fuel with
  | zero => intro f j _; exact List.Perm.refl _
  | succ fuel ih =>
    intro f j h1
    simp only [bubbleDownFuel]
    split_ifs with hc h2 h3 h4 h5
    · obtain ⟨hj, hj2⟩ := hc
      refine (ih _ (j * 2) (by omega)).trans ?_
      exact listOf_swapSlots_perm f j (j * 2) n h1 (by omega) (by omega) (by omega)
    · exact List.Perm.refl _
    · obtain ⟨hj, hj2⟩ := hc
      refine (ih _ (j * 2) (by omega)).trans ?_
      exact listOf_swapSlots_perm f j (j * 2) n h1 (by omega) (by omega) (by omega)
    · obtain ⟨hj, hj2⟩ := hc
      refine (ih _ (j * 2 + 1) (by omega)).trans ?_
      exact listOf_swapSlots_perm f j (j * 2 + 1) n h1 (by omega) (by omega) (by omega)
    · exact List.Perm.refl _
    · exact List.Perm.refl _

theorem bubbleUpFuel_frame (before : Int → Int → Bool) :
    ∀ (fuel : Nat) (f : Nat → Int) (j k : Nat), k = 0 ∨ j < k →
    bubbleUpFuel before fuel f j k = f k := by
  intro fuel
  induction fuel with
  | zero => intro f j k _; rfl
  | succ fuel ih =>
    intro f j k h
    simp only [bubbleUpFuel]
    split_ifs with hc
    · obtain ⟨hj, -⟩ := hc
      rw [ih _ _ _ (by omega)]
      exact swapSlots_other f j (j / 2) k (by omega) (by omega)
    · rfl

theorem bubbleDownFuel_frame (before : Int → Int → Bool) (n : Nat) :
    ∀ (fuel : Nat) (f : Nat → Int) (j k : Nat), k = 0 ∨ n < k →
    bubbleDownFuel before n fuel f j k = f k := by
  intro fuel
  induction fuel with
  | zero => intro f j k _; rfl
  | succ fuel ih =>
    intro f j k h
    simp only [bubbleDownFuel]
    split_ifs with hc h2 h3 h4 h5
    · obtain ⟨hj, hj2⟩ := hc
      rw [ih _ _ _ (by omega)]
      exact swapSlots_other f j (j * 2) k (by omega) (by omega)
    · rfl
    · obtain ⟨hj, hj2⟩ := hc
      rw [ih _ _ _ (by omega)]
      exact swapSlots_other f j (j * 2) k (by omega) (by omega)
    · obtain ⟨hj, hj2⟩ := hc
      rw [ih _ _ _ (by omega)]
      exact swapSlots_other f j (j * 2 + 1) k (by omega) (by omega)
    · rfl
    · rfl

/-! ### State and contents facts about `add` and `pop` -/

theorem add_full (before : Int → Int → Bool) (e : Int) (s : Heap)
    (h : s.heapSize ≤ s.realSize) :
    add before e s = (s, some HeapError.capacityExceeded) := by
  unfold add
  rw [if_pos (by omega)]

theorem add_success (before : Int → Int → Bool) (e : Int) (s : Heap)
    (h : s.realSize < s.heapSize) :
    (add before e s).1.realSize = s.realSize + 1 ∧
    (add before e s).1.heapSize = s.heapSize ∧
    (add before e s).2 = none := by
  unfold add
  rw [if_neg (by omega)]
  exact ⟨rfl, rfl, rfl⟩

theorem add_perm (before : Int → Int → Bool) (e : Int) (s : Heap)
    (h : s.realSize < s.heapSize) :
    List.Perm (listOf (add before e s).1.heap (add before e s).1.realSize)
      (e :: listOf s.heap s.realSize) := by
  unfold add
  rw [if_neg (by omega)]
  dsimp only
  unfold bubbleUp
  refine (bubbleUpFuel_perm before (s.realSize + 1) (s.realSize + 1) _ (s.realSize + 1)
    (by omega) (by omega)).trans ?_
  rw [listOf_succ, writeSlot_self,
    listOf_congr s.realSize (fun i h1 h2 => writeSlot_other s.heap _ e i (by omega))]
  exact List.perm_append_singleton e _

theorem pop_empty (before : Int → Int → Bool) (sentinel : Int) (s : Heap)
    (h : s.realSize = 0) :
    pop before sentinel s = (sentinel, s, some HeapError.emptyHeap) := by
  unfold pop
  rw [if_pos (by omega)]

theorem pop_state (before : Int → Int → Bool) (sentinel : Int) (s : Heap)
    (h : 1 ≤ s.realSize) :
    (pop before sentinel s).1 = s.heap 1 ∧
    (pop before sentinel s).2.1.realSize = s.realSize - 1 ∧
    (pop before sentinel s).2.1.heapSize = s.heapSize ∧
    (pop before sentinel s).2.2 = none := by
  unfold pop
  rw [if_neg (by omega)]
  exact ⟨rfl, rfl, rfl, rfl⟩

theorem pop_perm (before : Int → Int → Bool) (sentinel : Int) (s : Heap)
    (h : 1 ≤ s.realSize) :
    List.Perm ((pop before sentinel s).1
        :: listOf (pop before sentinel s).2.1.heap (s.realSize - 1))
      (listOf s.heap s.realSize) := by
  unfold pop
  rw [if_neg (by omega)]
  dsimp only
  unfold bubbleDown
  refine (List.Perm.cons _
    (bubbleDownFuel_perm before (s.realSize - 1) (s.realSize - 1) _ 1 (le_refl 1))).trans ?_
  obtain ⟨n, hn⟩ := Nat.exists_eq_add_of_le' h
  rw [hn]
  simp only [Nat.add_sub_cancel]
  rcases Nat.eq_zero_or_pos n with hz | hp
  · subst hz
    rw [listOf_zero, listOf_one]
  · have hmap : (List.range' 2 (n - 1)).map (writeSlot s.heap 1 (s.heap (n + 1)))
        = (List.range' 2 (n - 1)).map s.heap := by
      refine List.map_congr_left fun k hk => ?_
      rw [List.mem_range'_1] at hk
      exact writeSlot_other s.heap 1 _ k (by omega)
    rw [listOf_head _ n hp, writeSlot_self, hmap, listOf_succ, listOf_head s.heap n hp]
    exact List.Perm.cons _ (List.perm_append_singleton _ _).symm

/-! ### The loops restore the heap property

For bubble-up the invariant is: the heap property holds everywhere except
possibly on the edge from `j` to its parent, and the parent of `j` already
dominates the children of `j`.  For bubble-down it is: the heap property
holds everywhere except possibly on the edges from `j` to its children, and
the parent of `j` already dominates the children of `j`. -/

theorem bnot_eq_true {b : Bool} (h : ¬b = true) : b = false := by
  cases b
  · rfl
  · exact absurd rfl h

theorem bubbleUpFuel_heapProp {before : Int → Int → Bool} (hA : BAsymm before)
    (hT : BTrans before) (n : Nat) :
    ∀ (fuel : Nat) (f : Nat → Int) (j : Nat), j ≤ fuel → 1 ≤ j → j ≤ n →
    (∀ i, 2 ≤ i → i ≤ n → i ≠ j → before (f i) (f (i / 2)) = false) →
    (2 ≤ j → ∀ c, 2 ≤ c → c ≤ n → c / 2 = j → before (f c) (f (j / 2)) = false) →
    heapPropN before (bubbleUpFuel before fuel f j) n := by
  intro fuel
  induction fuel with
  | zero =>
    intro f j hfj hj1 hjn hx hgc
    exact absurd (le_trans hj1 hfj) (by decide)
  | succ fuel ih =>
    intro f j hfj hj1 hjn hx hgc
    simp only [bubbleUpFuel]
    split_ifs with hc
    · obtain ⟨hj2, hbeat⟩ := hc
      refine ih (swapSlots f j (j / 2)) (j / 2) (by omega) (by omega) (by omega) ?_ ?_
      · intro i hi2 hin hip
        by_cases hij : i = j
        · rw [hij, swapSlots_left f j (j / 2) (by omega), swapSlots_right f j (j / 2)]
          exact hA _ _ hbeat
        · by_cases hichild : i / 2 = j
          · rw [swapSlots_other f j (j / 2) i (by omega) (by omega), hichild,
              swapSlots_left f j (j / 2) (by omega)]
            exact hgc (by omega) i hi2 hin hichild
          · by_cases hisib : i / 2 = j / 2
            · rw [swapSlots_other f j (j / 2) i (by omega) (by omega), hisib,
                swapSlots_right f j (j / 2)]
              have h5 := hx i hi2 hin hij
              rw [hisib] at h5
              exact hT _ _ _ (hA _ _ hbeat) h5
            · rw [swapSlots_other f j (j / 2) i (by omega) (by omega),
                swapSlots_other f j (j / 2) (i / 2) (by omega) (by omega)]
              exact hx i hi2 hin hij
      · intro hp2 c hc2 hcn hcp
        rw [swapSlots_other f j (j / 2) (j / 2 / 2) (by omega) (by omega)]
        by_cases hcj : c = j
        · rw [hcj, swapSlots_left f j (j / 2) (by omega)]
          exact hx (j / 2) (by omega) (by omega) (by omega)
        · rw [swapSlots_other f j (j / 2) c (by omega) (by omega)]
          have h5 := hx c hc2 hcn hcj
          rw [hcp] at h5
          exact hT _ _ _ (hx (j / 2) hp2 (by omega) (by omega)) h5
    · intro i hi2 hin
      by_cases hij : i = j
      · cases hb : before (f i) (f (i / 2)) with
        | false => rfl
        | true => exact absurd ⟨by omega, by rw [← hij]; exact hb⟩ hc
      · exact hx i hi2 hin hij

theorem bubbleDownFuel_heapProp {before : Int → Int → Bool} (hA : BAsymm before)
    (hT : BTrans before) (n : Nat) :
    ∀ (fuel : Nat) (f : Nat → Int) (j : Nat), n - j ≤ fuel → 1 ≤ j →
    (∀ i, 2 ≤ i → i ≤ n → i / 2 ≠ j → before (f i) (f (i / 2)) = false) →
    (2 ≤ j → ∀ c, 2 ≤ c → c ≤ n → c / 2 = j → before (f c) (f (j / 2)) = false) →
    heapPropN before (bubbleDownFuel before n fuel f j) n := by
  intro fuel
  induction fuel with
  | zero =>
    intro f j hfj hj1 hx hgc
    intro i hi2 hin
    exact hx i hi2 hin (by omega)
  | succ fuel ih =>
    intro f j hfj hj1 hx hgc
    simp only [bubbleDownFuel]
    split_ifs with hc h2 h3 h4 h5
    · -- only the left child exists and it beats the parent: swap left
      obtain ⟨-, hj2⟩ := hc
      refine ih (swapSlots f j (j * 2)) (j * 2) (by omega) (by omega) ?_ ?_
      · intro i hi2 hin hip
        by_cases hij : i = j
        · rw [hij, swapSlots_left f j (j * 2) (by omega),
            swapSlots_other f j (j * 2) (j / 2) (by omega) (by omega)]
          exact hgc (by omega) (j * 2) (by omega) (by omega) (by omega)
        · by_cases hil : i = j * 2
          · rw [hil, show j * 2 / 2 = j from by omega, swapSlots_right f j (j * 2),
              swapSlots_left f j (j * 2) (by omega)]
            exact hA _ _ h3
          · by_cases hichild : i / 2 = j
            · exact absurd hin (by omega)
            · rw [swapSlots_other f j (j * 2) i (by omega) (by omega),
                swapSlots_other f j (j * 2) (i / 2) (by omega) (by omega)]
              exact hx i hi2 hin hichild
      · intro hl2 c hc2 hcn hcl
        rw [show j * 2 / 2 = j from by omega, swapSlots_left f j (j * 2) (by omega),
          swapSlots_other f j (j * 2) c (by omega) (by omega)]
        have h5 := hx c hc2 hcn (by omega)
        rw [hcl] at h5
        exact h5
    · -- only the left child exists and no violation: stop
      intro i hi2 hin
      by_cases hichild : i / 2 = j
      · have hi : i = j * 2 := by omega
        rw [hichild, hi]
        exact bnot_eq_true h3
      · exact hx i hi2 hin hichild
    · -- both children exist, a violation, left child first: swap left
      obtain ⟨-, hj2⟩ := hc
      have hord : before (f (j * 2 + 1)) (f (j * 2)) = false := hA _ _ h5
      have hbeat : before (f (j * 2)) (f j) = true := by
        rcases h4 with hl | hr
        · exact hl
        · exact beats_trans_not hT hr hord
      refine ih (swapSlots f j (j * 2)) (j * 2) (by omega) (by omega) ?_ ?_
      · intro i hi2 hin hip
        by_cases hij : i = j
        · rw [hij, swapSlots_left f j (j * 2) (by omega),
            swapSlots_other f j (j * 2) (j / 2) (by omega) (by omega)]
          exact hgc (by omega) (j * 2) (by omega) (by omega) (by omega)
        · by_cases hil : i = j * 2
          · rw [hil, show j * 2 / 2 = j from by omega, swapSlots_right f j (j * 2),
              swapSlots_left f j (j * 2) (by omega)]
            exact hA _ _ hbeat
          · by_cases hir : i = j * 2 + 1
            · rw [hir, show (j * 2 + 1) / 2 = j from by omega,
                swapSlots_left f j (j * 2) (by omega),
                swapSlots_other f j (j * 2) (j * 2 + 1) (by omega) (by omega)]
              exact hord
            · by_cases hichild : i / 2 = j
              · exact absurd hichild (by omega)
              · rw [swapSlots_other f j (j * 2) i (by omega) (by omega),
                  swapSlots_other f j (j * 2) (i / 2) (by omega) (by omega)]
                exact hx i hi2 hin hichild
      · intro hl2 c hc2 hcn hcl
        rw [show j * 2 / 2 = j from by omega, swapSlots_left f j (j * 2) (by omega),
          swapSlots_other f j (j * 2) c (by omega) (by omega)]
        have h6 := hx c hc2 hcn (by omega)
        rw [hcl] at h6
        exact h6
    · -- both children exist, a violation, right child first: swap right
      obtain ⟨-, hj2⟩ := hc
      have hord : before (f (j * 2)) (f (j * 2 + 1)) = false := bnot_eq_true h5
      have hbeat : before (f (j * 2 + 1)) (f j) = true := by
        rcases h4 with hl | hr
        · exact beats_trans_not hT hl hord
        · exact hr
      refine ih (swapSlots f j (j * 2 + 1)) (j * 2 + 1) (by omega) (by omega) ?_ ?_
      · intro i hi2 hin hip
        by_cases hij : i = j
        · rw [hij, swapSlots_left f j (j * 2 + 1) (by omega),
            swapSlots_other f j (j * 2 + 1) (j / 2) (by omega) (by omega)]
          exact hgc (by omega) (j * 2 + 1) (by omega) (by omega) (by omega)
        · by_cases hil : i = j * 2
          · rw [hil, show j * 2 / 2 = j from by omega,
              swapSlots_other f j (j * 2 + 1) (j * 2) (by omega) (by omega),
              swapSlots_left f j (j * 2 + 1) (by omega)]
            exact hord
          · by_cases hir : i = j * 2 + 1
            · rw [hir, show (j * 2 + 1) / 2 = j from by omega,
                swapSlots_right f j (j * 2 + 1), swapSlots_left f j (j * 2 + 1) (by omega)]
              exact hA _ _ hbeat
            · by_cases hichild : i / 2 = j
              · exact absurd hichild (by omega)
              · rw [swapSlots_other f j (j * 2 + 1) i (by omega) (by omega),
                  swapSlots_other f j (j * 2 + 1) (i / 2) (by omega) (by omega)]
                exact hx i hi2 hin hichild
      · intro hr2 c hc2 hcn hcr
        rw [show (j * 2 + 1) / 2 = j from by omega,
          swapSlots_left f j (j * 2 + 1) (by omega),
          swapSlots_other f j (j * 2 + 1) c (by omega) (by omega)]
        have h6 := hx c hc2 hcn (by omega)
        rw [hcr] at h6
        exact h6
    · -- both children exist and no violation: stop
      intro i hi2 hin
      by_cases hichild : i / 2 = j
      · push_neg at h4
        have hi : i = j * 2 ∨ i = j * 2 + 1 := by omega
        rcases hi with hi | hi
        · rw [hichild, hi]
          exact bnot_eq_true h4.1
        · rw [hichild, hi]
          exact bnot_eq_true h4.2
      · exact hx i hi2 hin hichild
    · -- a leaf: the loop guard fails and nothing changes
      intro i hi2 hin
      exact hx i hi2 hin (by omega)

/-! ### `add` and `pop` preserve the heap property -/

theorem add_heapProp {before : Int → Int → Bool} (hA : BAsymm before) (hT : BTrans before)
    (e : Int) (s : Heap) (h : heapProp before s) : heapProp before (add before e s).1 := by
  unfold add
  split_ifs with hcap
  · exact h
  · unfold heapProp
    dsimp only
    unfold bubbleUp
    refine bubbleUpFuel_heapProp hA hT (s.realSize + 1) (s.realSize + 1) _ (s.realSize + 1)
      (le_refl _) (by omega) (le_refl _) ?_ ?_
    · intro i hi2 hin hij
      rw [writeSlot_other s.heap _ e i (by omega),
        writeSlot_other s.heap _ e (i / 2) (by omega)]
      exact h i hi2 (by omega)
    · intro hp2 c hc2 hcn hcj
      exact absurd hcn (by omega)

theorem pop_heapProp {before : Int → Int → Bool} (hA : BAsymm before) (hT : BTrans before)
    (sentinel : Int) (s : Heap) (h : heapProp before s) :
    heapProp before (pop before sentinel s).2.1 := by
  unfold pop
  split_ifs with hempty
  · exact h
  · unfold heapProp
    dsimp only
    unfold bubbleDown
    refine bubbleDownFuel_heapProp hA hT (s.realSize - 1) (s.realSize - 1) _ 1
      (by omega) (le_refl _) ?_ ?_
    · intro i hi2 hin hij
      rw [writeSlot_other s.heap 1 _ i (by omega),
        writeSlot_other s.heap 1 _ (i / 2) (by omega)]
      exact h i hi2 (by omega)
    · intro hp2
      exact absurd hp2 (by omega)

/-! ### The root dominates every live slot -/

theorem heapPropN_root {before : Int → Int → Bool} (hA : BAsymm before) (hT : BTrans before)
    {f : Nat → Int} {n : Nat} (h : heapPropN before f n) :
    ∀ i, 1 ≤ i → i ≤ n → before (f i) (f 1) = false := by
  intro i
  induction i using Nat.strong_induction_on with
  | _ i ih =>
    intro h1 h2
    rcases Nat.lt_or_ge i 2 with hi | hi
    · have hi1 : i = 1 := by omega
      rw [hi1]
      exact hA.irrefl (f 1)
    · exact hT _ _ _ (ih (i / 2) (by omega) (by omega) (by omega)) (h i hi h2)

theorem root_dominates {before : Int → Int → Bool} (hA : BAsymm before) (hT : BTrans before)
    {f : Nat → Int} {n : Nat} (h : heapPropN before f n) :
    ∀ y ∈ listOf f n, before y (f 1) = false := by
  intro y hy
  unfold listOf at hy
  rcases List.mem_map.mp hy with ⟨i, hi, rfl⟩
  rw [List.mem_range'_1] at hi
  exact heapPropN_root hA hT h i hi.1 (by omega)

/-! ### Repeated extraction returns a sorted permutation of the live slots -/

theorem extractList_spec {before : Int → Int → Bool} (hA : BAsymm before) (hT : BTrans before)
    (sentinel : Int) :
    ∀ (m : Nat) (s : Heap), s.realSize = m → heapProp before s →
    List.Perm (extractList before sentinel m s) (listOf s.heap m) ∧
    (extractList before sentinel m s).Sorted (fun a b => before b a = false) := by
  intro m
  induction m with
  | zero =>
    intro s h1 h2
    constructor
    · rw [listOf_zero]
      exact List.Perm.nil
    · exact List.sorted_nil
  | succ m ih =>
    intro s h1 h2
    have hpos : 1 ≤ s.realSize := by omega
    obtain ⟨hv, hsz, hcap, herr⟩ := pop_state before sentinel s hpos
    have hperm := pop_perm before sentinel s hpos
    rw [h1] at hperm
    simp only [Nat.add_sub_cancel] at hperm
    have hprop := pop_heapProp hA hT sentinel s h2
    obtain ⟨ihp, ihs⟩ := ih (pop before sentinel s).2.1 (by omega) hprop
    constructor
    · exact (List.Perm.cons _ ihp).trans hperm
    · show List.Sorted _ ((pop before sentinel s).1
        :: extractList before sentinel m (pop before sentinel s).2.1)
      rw [List.sorted_cons]
      refine ⟨?_, ihs⟩
      intro b hb
      have hbmem : b ∈ listOf s.heap (m + 1) :=
        hperm.subset (List.mem_cons_of_mem _ (ihp.subset hb))
      rw [hv]
      have h2n : heapPropN before s.heap (m + 1) := by
        rw [← h1]
        exact h2
      exact root_dominates hA hT h2n b hbmem

/-! ### Filling a fresh heap by successive `add` calls -/

theorem addAll_spec {before : Int → Int → Bool} (hA : BAsymm before) (hT : BTrans before) :
    ∀ (xs : List Int) (s : Heap), heapProp before s →
      s.realSize + xs.length ≤ s.heapSize →
      heapProp before (addAll before xs s) ∧
      (addAll before xs s).realSize = s.realSize + xs.length ∧
      (addAll before xs s).heapSize = s.heapSize ∧
      List.Perm (listOf (addAll before xs s).heap (addAll before xs s).realSize)
        (listOf s.heap s.realSize ++ xs) := by
  intro xs
  induction xs with
  | nil =>
    intro s h1 h2
    refine ⟨h1, by simp [addAll], by simp [addAll], ?_⟩
    simp [addAll]
  | cons x xs ih =>
    intro s h1 h2
    have hlen : (x :: xs).length = xs.length + 1 := rfl
    rw [hlen] at h2
    have hcap : s.realSize < s.heapSize := by omega
    obtain ⟨ha1, ha2, ha3⟩ := add_success before x s hcap
    have hap := add_perm before x s hcap
    have hprop := add_heapProp hA hT x s h1
    obtain ⟨ih1, ih2, ih3, ih4⟩ := ih (add before x s).1 hprop (by omega)
    have haddAll : addAll before (x :: xs) s = addAll before xs (add before x s).1 := rfl
    rw [haddAll, hlen]
    refine ⟨ih1, by omega, by omega, ?_⟩
    rw [ha1] at hap
    refine ih4.trans ?_
    rw [ha1]
    refine (hap.append_right xs).trans ?_
    exact List.perm_middle.symm

theorem mkHeap_heapProp (before : Int → Int → Bool) (cap : Nat) :
    heapProp before (mkHeap cap) := by
  intro i hi2 hin
  simp only [mkHeap] at hin
  exact absurd hin (by omega)

/-! ### Every sequence of mutating calls preserves the heap property -/

theorem step_heapProp {before : Int → Int → Bool} (hA : BAsymm before) (hT : BTrans before)
    (sentinel : Int) (s : Heap) (op : Op) (h : heapProp before s) :
    heapProp before (step before sentinel s op) := by
  cases op with
  | add e => exact add_heapProp hA hT e s h
  | pop => exact pop_heapProp hA hT sentinel s h

theorem runOps_heapProp {before : Int → Int → Bool} (hA : BAsymm before) (hT : BTrans before)
    (sentinel : Int) :
    ∀ (ops : List Op) (s : Heap), heapProp before s →
    heapProp before (runOps before sentinel ops s) := by
  intro ops
  induction ops with
  | nil => intro s h; exact h
  | cons op ops ih =>
    intro s h
    exact ih (step before sentinel s op) (step_heapProp hA hT sentinel s op h)

/-! ### Size accounting -/

theorem runOps_cons (before : Int → Int → Bool) (sentinel : Int) (op : Op) (ops : List Op)
    (s : Heap) :
    runOps before sentinel (op :: ops) s = runOps before sentinel ops (step before sentinel s op) :=
  rfl

theorem runOps_size_count (before : Int → Int → Bool) (sentinel : Int) :
    ∀ (ops : List Op) (s : Heap),
      (runOps before sentinel ops s).realSize + (countSucc before sentinel ops s).2
        = s.realSize + (countSucc before sentinel ops s).1 := by
  intro ops
  induction ops with
  | nil => intro s; rfl
  | cons op ops ih =>
    intro s
    cases op with
    | add e =>
      rw [runOps_cons]
      by_cases hc : s.realSize + 1 > s.heapSize
      · simp only [countSucc]
        rw [if_pos hc]
        have hstep : step before sentinel s (Op.add e) = s := by
          simp only [step]
          rw [add_full before e s (by omega)]
        rw [hstep]
        exact ih s
      · simp only [countSucc]
        rw [if_neg hc]
        have h := ih (step before sentinel s (Op.add e))
        have hsz : (step before sentinel s (Op.add e)).realSize = s.realSize + 1 := by
          simp only [step]
          exact (add_success before e s (by omega)).1
        omega
    | pop =>
      rw [runOps_cons]
      by_cases hc : s.realSize < 1
      · simp only [countSucc]
        rw [if_pos hc]
        have hstep : step before sentinel s Op.pop = s := by
          simp only [step]
          rw [pop_empty before sentinel s (by omega)]
        rw [hstep]
        exact ih s
      · simp only [countSucc]
        rw [if_neg hc]
        have h := ih (step before sentinel s Op.pop)
        have hsz : (step before sentinel s Op.pop).realSize = s.realSize - 1 := by
          simp only [step]
          exact (pop_state before sentinel s (by omega)).2.1
        have hpos : 1 ≤ s.realSize := by omega
        omega

theorem extract_addAll {before : Int → Int → Bool} (hA : BAsymm before) (hT : BTrans before)
    (sentinel : Int) (xs : List Int) (cap : Nat) (h : xs.length ≤ cap) :
    List.Perm (extractList before sentinel xs.length (addAll before xs (mkHeap cap))) xs ∧
    (extractList before sentinel xs.length (addAll before xs (mkHeap cap))).Sorted
      (fun a b => before b a = false) := by
  obtain ⟨h1, h2, h3, h4⟩ := addAll_spec hA hT xs (mkHeap cap) (mkHeap_heapProp before cap)
    (by simp only [mkHeap]; omega)
  have hsz : (addAll before xs (mkHeap cap)).realSize = xs.length := by
    rw [h2]
    simp [mkHeap]
  obtain ⟨hp, hs⟩ := extractList_spec hA hT sentinel xs.length
    (addAll before xs (mkHeap cap)) hsz h1
  rw [hsz] at h4
  refine ⟨hp.trans (h4.trans ?_), hs⟩
  simp only [mkHeap]
  rw [listOf_zero]
  exact List.Perm.refl xs

/-! ### The claims -/

/-- C1: after every sequence of `add` / `pop` calls on a freshly constructed
heap, the heap property holds: every slot `i` in `[2, count]` is dominated by
its parent slot `i / 2` — the parent is at least the child for `MaxHeap` and
at most the child for `MinHeap`. -/
theorem claim_C1_heap_invariant (cap : Nat) (ops : List Op) :
    (∀ i, 2 ≤ i → i ≤ (runOps maxBefore INT_MIN ops (mkHeap cap)).realSize →
      (runOps maxBefore INT_MIN ops (mkHeap cap)).heap (i / 2)
        ≥ (runOps maxBefore INT_MIN ops (mkHeap cap)).heap i) ∧
    (∀ i, 2 ≤ i → i ≤ (runOps minBefore INT_MAX ops (mkHeap cap)).realSize →
      (runOps minBefore INT_MAX ops (mkHeap cap)).heap (i / 2)
        ≤ (runOps minBefore INT_MAX ops (mkHeap cap)).heap i) := by
  constructor
  · intro i h2 hn
    have h := runOps_heapProp maxBefore_asymm maxBefore_trans INT_MIN ops (mkHeap cap)
      (mkHeap_heapProp maxBefore cap) i h2 hn
    simp only [maxBefore, decide_eq_false_iff_not] at h
    omega
  · intro i h2 hn
    have h := runOps_heapProp minBefore_asymm minBefore_trans INT_MAX ops (mkHeap cap)
      (mkHeap_heapProp minBefore cap) i h2 hn
    simp only [minBefore, decide_eq_false_iff_not] at h
    omega

/-- Witness for C1 at a concrete run: capacity 10, calls
`add 1; add 4; add 3; pop`, checked at slot 2 for both variants. -/
theorem claim_C1_heap_invariant_witness :
    2 ≤ 2 ∧
    2 ≤ (runOps maxBefore INT_MIN [Op.add 1, Op.add 4, Op.add 3, Op.pop] (mkHeap 10)).realSize ∧
    2 ≤ (runOps minBefore INT_MAX [Op.add 1, Op.add 4, Op.add 3, Op.pop] (mkHeap 10)).realSize ∧
    (runOps maxBefore INT_MIN [Op.add 1, Op.add 4, Op.add 3, Op.pop] (mkHeap 10)).heap (2 / 2)
      ≥ (runOps maxBefore INT_MIN [Op.add 1, Op.add 4, Op.add 3, Op.pop] (mkHeap 10)).heap 2 ∧
    (runOps minBefore INT_MAX [Op.add 1, Op.add 4, Op.add 3, Op.pop] (mkHeap 10)).heap (2 / 2)
      ≤ (runOps minBefore INT_MAX [Op.add 1, Op.add 4, Op.add 3, Op.pop] (mkHeap 10)).heap 2 :=
  ⟨by decide, by decide, by decide,
    (claim_C1_heap_invariant 10 [Op.add 1, Op.add 4, Op.add 3, Op.pop]).1 2 (by decide) (by decide),
    (claim_C1_heap_invariant 10 [Op.add 1, Op.add 4, Op.add 3, Op.pop]).2 2 (by decide) (by decide)⟩

/-- C2: inserting the elements of any list into a fresh heap whose capacity is
at least the list length and then extracting as many times returns exactly the
input sorted by the variant order: non-increasing for `MaxHeap`,
non-decreasing for `MinHeap`. -/
theorem claim_C2_extraction_order (xs : List Int) (cap : Nat) (h : xs.length ≤ cap) :
    extractList maxBefore INT_MIN xs.length (addAll maxBefore xs (mkHeap cap))
      = List.insertionSort (fun a b : Int => a ≥ b) xs ∧
    extractList minBefore INT_MAX xs.length (addAll minBefore xs (mkHeap cap))
      = List.insertionSort (fun a b : Int => a ≤ b) xs := by
  constructor
  · obtain ⟨hp, hs⟩ := extract_addAll maxBefore_asymm maxBefore_trans INT_MIN xs cap h
    haveI ht : IsTotal Int (fun a b : Int => a ≥ b) := ⟨fun a b => le_total b a⟩
    haveI htr : IsTrans Int (fun a b : Int => a ≥ b) := ⟨fun a b c h1 h2 => le_trans h2 h1⟩
    haveI has : IsAntisymm Int (fun a b : Int => a ≥ b) := ⟨fun a b h1 h2 => le_antisymm h2 h1⟩
    refine List.eq_of_perm_of_sorted (hp.trans (List.perm_insertionSort _ xs).symm) ?_
      (List.sorted_insertionSort _ xs)
    exact hs.imp fun {a b} hab => by
      simp only [maxBefore, decide_eq_false_iff_not] at hab
      omega
  · obtain ⟨hp, hs⟩ := extract_addAll minBefore_asymm minBefore_trans INT_MAX xs cap h
    haveI ht : IsTotal Int (fun a b : Int => a ≤ b) := ⟨fun a b => le_total a b⟩
    haveI htr : IsTrans Int (fun a b : Int => a ≤ b) := ⟨fun a b c h1 h2 => le_trans h1 h2⟩
    haveI has : IsAntisymm Int (fun a b : Int => a ≤ b) := ⟨fun a b h1 h2 => le_antisymm h1 h2⟩
    refine List.eq_of_perm_of_sorted (hp.trans (List.perm_insertionSort _ xs).symm) ?_
      (List.sorted_insertionSort _ xs)
    exact hs.imp fun {a b} hab => by
      simp only [minBefore, decide_eq_false_iff_not] at hab
      omega

/-- Witness for C2 at the concrete input `[1, 4, 3, 6, 7]` with capacity 10. -/
theorem claim_C2_extraction_order_witness :
    ([1, 4, 3, 6, 7] : List Int).length ≤ 10 ∧
    extractList maxBefore INT_MIN ([1, 4, 3, 6, 7] : List Int).length
        (addAll maxBefore [1, 4, 3, 6, 7] (mkHeap 10))
      = List.insertionSort (fun a b : Int => a ≥ b) [1, 4, 3, 6, 7] ∧
    extractList minBefore INT_MAX ([1, 4, 3, 6, 7] : List Int).length
        (addAll minBefore [1, 4, 3, 6, 7] (mkHeap 10))
      = List.insertionSort (fun a b : Int => a ≤ b) [1, 4, 3, 6, 7] :=
  ⟨by decide, (claim_C2_extraction_order [1, 4, 3, 6, 7] 10 (by decide)).1,
    (claim_C2_extraction_order [1, 4, 3, 6, 7] 10 (by decide)).2⟩

/-- C6: at every point of a sequence of mutating calls on a fresh heap,
`size()` equals the number of successful `add` calls so far minus the number
of successful `pop` calls so far, and the latter never exceeds the former. -/
theorem claim_C6_size_accounting (cap : Nat) (ops : List Op) :
    (MaxHeap.size (runOps maxBefore INT_MIN ops (mkHeap cap))
        = (countSucc maxBefore INT_MIN ops (mkHeap cap)).1
          - (countSucc maxBefore INT_MIN ops (mkHeap cap)).2
      ∧ (countSucc maxBefore INT_MIN ops (mkHeap cap)).2
          ≤ (countSucc maxBefore INT_MIN ops (mkHeap cap)).1) ∧
    (MinHeap.size (runOps minBefore INT_MAX ops (mkHeap cap))
        = (countSucc minBefore INT_MAX ops (mkHeap cap)).1
          - (countSucc minBefore INT_MAX ops (mkHeap cap)).2
      ∧ (countSucc minBefore INT_MAX ops (mkHeap cap)).2
          ≤ (countSucc minBefore INT_MAX ops (mkHeap cap)).1) := by
  have h1 := runOps_size_count maxBefore INT_MIN ops (mkHeap cap)
  have h2 := runOps_size_count minBefore INT_MAX ops (mkHeap cap)
  have hmk : (mkHeap cap).realSize = 0 := rfl
  unfold MaxHeap.size MinHeap.size size
  omega

/-- C7: the worked example of the specification on a `MaxHeap` of capacity 10:
inserting 1, 4, 3, 6, 7 in order gives size 5 and peek 7; popping returns 7
and leaves size 4 and peek 6; the five successive extractions are
7, 6, 4, 3, 1. -/
theorem claim_C7_worked_example :
    MaxHeap.size
        (MaxHeap.add 7 (MaxHeap.add 6 (MaxHeap.add 3 (MaxHeap.add 4
          (MaxHeap.add 1 (mkHeap 10)).1).1).1).1).1 = 5 ∧
    (MaxHeap.peek
        (MaxHeap.add 7 (MaxHeap.add 6 (MaxHeap.add 3 (MaxHeap.add 4
          (MaxHeap.add 1 (mkHeap 10)).1).1).1).1).1).1 = 7 ∧
    (MaxHeap.pop
        (MaxHeap.add 7 (MaxHeap.add 6 (MaxHeap.add 3 (MaxHeap.add 4
          (MaxHeap.add 1 (mkHeap 10)).1).1).1).1).1).1 = 7 ∧
    MaxHeap.size
        (MaxHeap.pop
          (MaxHeap.add 7 (MaxHeap.add 6 (MaxHeap.add 3 (MaxHeap.add 4
            (MaxHeap.add 1 (mkHeap 10)).1).1).1).1).1).2.1 = 4 ∧
    (MaxHeap.peek
        (MaxHeap.pop
          (MaxHeap.add 7 (MaxHeap.add 6 (MaxHeap.add 3 (MaxHeap.add 4
            (MaxHeap.add 1 (mkHeap 10)).1).1).1).1).1).2.1).1 = 6 ∧
    extractList maxBefore INT_MIN 5
        (MaxHeap.add 7 (MaxHeap.add 6 (MaxHeap.add 3 (MaxHeap.add 4
          (MaxHeap.add 1 (mkHeap 10)).1).1).1).1).1 = [7, 6, 4, 3, 1] := by
  decide

/-- C3: an `add` call on a heap whose count equals its capacity signals the
capacity condition — the printed diagnostic of the source, modelled as
`HeapError.capacityExceeded` — and leaves the heap state entirely unchanged:
the very same state, hence the same `size()`, the same `peek()` and the same
stored sequence.  Stated for every comparison `before`, so it covers
`MaxHeap.add` and `MinHeap.add` at once. -/
theorem claim_C3_capacity_boundary (before : Int → Int → Bool) (e : Int) (s : Heap)
    (h : s.realSize = s.heapSize) :
    (add before e s).2 = some HeapError.capacityExceeded ∧
    (add before e s).1 = s ∧
    size (add before e s).1 = size s ∧
    peek (add before e s).1 = peek s ∧
    listOf (add before e s).1.heap (add before e s).1.realSize = listOf s.heap s.realSize := by
  have ha := add_full before e s (by omega)
  rw [ha]
  exact ⟨rfl, rfl, rfl, rfl, rfl⟩

/-- Witness for C3: a `MaxHeap` of capacity 1 holding one element rejects a
second `add` and keeps its state. -/
theorem claim_C3_capacity_boundary_witness :
    (MaxHeap.add 5 (mkHeap 1)).1.realSize = (MaxHeap.add 5 (mkHeap 1)).1.heapSize ∧
    (add maxBefore 9 (MaxHeap.add 5 (mkHeap 1)).1).2 = some HeapError.capacityExceeded ∧
    (add maxBefore 9 (MaxHeap.add 5 (mkHeap 1)).1).1 = (MaxHeap.add 5 (mkHeap 1)).1 :=
  ⟨by decide,
    (claim_C3_capacity_boundary maxBefore 9 (MaxHeap.add 5 (mkHeap 1)).1 (by decide)).1,
    (claim_C3_capacity_boundary maxBefore 9 (MaxHeap.add 5 (mkHeap 1)).1 (by decide)).2.1⟩

/-- Counterexample to C4 as stated: the empty-heap failures of `peek` and
`pop` do return sentinel values indistinguishable from legitimate data — on
an empty `MaxHeap`, `peek` returns `INT_MAX`, the very value it returns on a
heap that legitimately stores the element `INT_MAX`; `pop` likewise returns
the sentinels `INT_MIN` (`MaxHeap`) and `INT_MAX` (`MinHeap`). -/
theorem claim_C4_counterexample :
    (MaxHeap.peek (mkHeap 1)).1 = INT_MAX ∧
    (MaxHeap.peek (MaxHeap.add INT_MAX (mkHeap 1)).1).1 = INT_MAX ∧
    (MaxHeap.pop (mkHeap 1)).1 = INT_MIN ∧
    (MinHeap.pop (mkHeap 1)).1 = INT_MAX := by
  decide

/-- C4 as amended: on a heap with count 0, `peek` and `pop` signal the
empty-heap condition (the printed diagnostic, modelled as
`HeapError.emptyHeap`) and in addition return sentinel values — `INT_MAX`
from `peek` in both variants, `INT_MIN` from `MaxHeap.pop` and `INT_MAX`
from `MinHeap.pop` — indistinguishable from legitimate data, and the heap
state is unchanged by the failed call. -/
theorem claim_C4_empty_boundary_amended (s : Heap) (h : s.realSize = 0) :
    peek s = (INT_MAX, some HeapError.emptyHeap) ∧
    MaxHeap.pop s = (INT_MIN, s, some HeapError.emptyHeap) ∧
    MinHeap.pop s = (INT_MAX, s, some HeapError.emptyHeap) := by
  refine ⟨?_, ?_, ?_⟩
  · unfold peek
    rw [if_pos (by omega)]
  · unfold MaxHeap.pop
    exact pop_empty maxBefore INT_MIN s h
  · unfold MinHeap.pop
    exact pop_empty minBefore INT_MAX s h

/-- Witness for the amended C4 on the fresh heap of capacity 2. -/
theorem claim_C4_empty_boundary_witness :
    (mkHeap 2).realSize = 0 ∧
    peek (mkHeap 2) = (INT_MAX, some HeapError.emptyHeap) ∧
    MaxHeap.pop (mkHeap 2) = (INT_MIN, mkHeap 2, some HeapError.emptyHeap) ∧
    MinHeap.pop (mkHeap 2) = (INT_MAX, mkHeap 2, some HeapError.emptyHeap) :=
  ⟨rfl, (claim_C4_empty_boundary_amended (mkHeap 2) rfl).1,
    (claim_C4_empty_boundary_amended (mkHeap 2) rfl).2.1,
    (claim_C4_empty_boundary_amended (mkHeap 2) rfl).2.2⟩

/-- C5: on an empty heap, `peek` returns the constant `INT_MAX` in both
variants, `pop` returns `INT_MIN` in the `MaxHeap` variant but `INT_MAX` in
the `MinHeap` variant, and each of these values is exactly what the same
call returns on a heap legitimately storing an element of that value. -/
theorem claim_C5_sentinel_values (s : Heap) (h : s.realSize = 0) :
    (MaxHeap.peek s).1 = INT_MAX ∧
    (MinHeap.peek s).1 = INT_MAX ∧
    (MaxHeap.pop s).1 = INT_MIN ∧
    (MinHeap.pop s).1 = INT_MAX ∧
    (MaxHeap.peek (MaxHeap.add INT_MAX (mkHeap 1)).1).1 = INT_MAX ∧
    (MaxHeap.pop (MaxHeap.add INT_MIN (mkHeap 1)).1).1 = INT_MIN ∧
    (MinHeap.pop (MinHeap.add INT_MAX (mkHeap 1)).1).1 = INT_MAX := by
  refine ⟨?_, ?_, ?_, ?_, by decide, by decide, by decide⟩
  · unfold MaxHeap.peek peek
    rw [if_pos (by omega)]
  · unfold MinHeap.peek peek
    rw [if_pos (by omega)]
  · unfold MaxHeap.pop pop
    rw [if_pos (by omega)]
  · unfold MinHeap.pop pop
    rw [if_pos (by omega)]

/-- Witness for C5 on the fresh heap of capacity 3. -/
theorem claim_C5_sentinel_values_witness :
    (mkHeap 3).realSize = 0 ∧
    (MaxHeap.peek (mkHeap 3)).1 = INT_MAX ∧
    (MinHeap.peek (mkHeap 3)).1 = INT_MAX ∧
    (MaxHeap.pop (mkHeap 3)).1 = INT_MIN ∧
    (MinHeap.pop (mkHeap 3)).1 = INT_MAX :=
  ⟨rfl, (claim_C5_sentinel_values (mkHeap 3) rfl).1,
    (claim_C5_sentinel_values (mkHeap 3) rfl).2.1,
    (claim_C5_sentinel_values (mkHeap 3) rfl).2.2.1,
    (claim_C5_sentinel_values (mkHeap 3) rfl).2.2.2.1⟩

/-- C8: `peek` is a `const` member: calling it twice in a row returns the
same value both times, and `size()` is unchanged by the calls. -/
theorem claim_C8_idempotent_peek (s : Heap) :
    (peekCall s).1 = (peekCall (peekCall s).2).1 ∧
    size (peekCall (peekCall s).2).2 = size s :=
  ⟨rfl, rfl⟩

/-! ### The `toString` loop renders the live slots in level order -/

theorem tsLoop_joinComma (f : Nat → Int) (n : Nat) :
    ∀ (rem i : Nat), i + rem = n + 1 → 1 ≤ i →
    tsLoop f n i rem
      = joinComma (((List.range' i rem).map f).map (fun x => ToString.toString x)) := by
  intro rem
  induction rem with
  | zero =>
    intro i h h1
    simp [tsLoop, joinComma]
  | succ rem ih =>
    intro i h h1
    simp only [tsLoop]
    rcases Nat.eq_zero_or_pos rem with hz | hp
    · subst hz
      rw [if_neg (by omega)]
      simp only [tsLoop, List.range'_one, List.map_cons, List.map_nil, joinComma]
      rw [String.append_empty, String.append_empty]
    · rw [if_pos (by omega), ih (i + 1) (by omega) (by omega)]
      obtain ⟨rem1, rfl⟩ : ∃ r, rem = r + 1 := ⟨rem - 1, by omega⟩
      rw [List.range'_succ, List.range'_succ]
      simp only [List.map_cons]
      simp only [joinComma]

/-- C9: on a heap with count > 0, `toString` renders exactly the `count`
stored elements in array (level) order — the slots `1 .. count`, comma
separated and bracketed — not in sorted order; on a heap with count 0 it
produces the fixed indicator "No element!", which differs from the rendering
of every single-element heap.  `toString` is shared by both variants. -/
theorem claim_C9_display (s t u : Heap) (hs : 1 ≤ s.realSize) (ht : t.realSize = 0)
    (hu : u.realSize = 1) :
    Heap.toString s
      = "[" ++ joinComma ((listOf s.heap s.realSize).map (fun x => ToString.toString x)) ++ "]" ∧
    Heap.toString t = "No element!" ∧
    Heap.toString u ≠ "No element!" := by
  refine ⟨?_, ?_, ?_⟩
  · unfold Heap.toString
    rw [if_neg (by omega), tsLoop_joinComma s.heap s.realSize s.realSize 1 (by omega) (by omega)]
    rfl
  · unfold Heap.toString
    rw [if_pos ht]
  · unfold Heap.toString
    rw [if_neg (by omega)]
    intro heq
    have hd := congrArg String.data heq
    have hL : String.data ("[" ++ tsLoop u.heap u.realSize 1 u.realSize ++ "]")
        = '[' :: ((tsLoop u.heap u.realSize 1 u.realSize).data ++ [']']) := rfl
    have hR : String.data "No element!" = 'N' :: "o element!".data := rfl
    rw [hL, hR] at hd
    injection hd with h1 h2
    exact absurd h1 (by decide)

/-- Witness for C9: the populated and single-element heap is the one storing
only 5, the empty heap is fresh with capacity 3. -/
theorem claim_C9_display_witness :
    1 ≤ (MaxHeap.add 5 (mkHeap 3)).1.realSize ∧
    (mkHeap 3).realSize = 0 ∧
    (MaxHeap.add 5 (mkHeap 3)).1.realSize = 1 ∧
    Heap.toString (MaxHeap.add 5 (mkHeap 3)).1
      = "[" ++ joinComma ((listOf (MaxHeap.add 5 (mkHeap 3)).1.heap
          (MaxHeap.add 5 (mkHeap 3)).1.realSize).map (fun x => ToString.toString x)) ++ "]" ∧
    Heap.toString (mkHeap 3) = "No element!" ∧
    Heap.toString (MaxHeap.add 5 (mkHeap 3)).1 ≠ "No element!" :=
  ⟨by decide, rfl, by decide,
    (claim_C9_display (MaxHeap.add 5 (mkHeap 3)).1 (mkHeap 3) (MaxHeap.add 5 (mkHeap 3)).1
      (by decide) rfl (by decide)).1,
    (claim_C9_display (MaxHeap.add 5 (mkHeap 3)).1 (mkHeap 3) (MaxHeap.add 5 (mkHeap 3)).1
      (by decide) rfl (by decide)).2.1,
    (claim_C9_display (MaxHeap.add 5 (mkHeap 3)).1 (mkHeap 3) (MaxHeap.add 5 (mkHeap 3)).1
      (by decide) rfl (by decide)).2.2⟩

/-! ### Stale storage is unobservable: congruence of the loops -/

theorem bubbleUpFuel_congr (before : Int → Int → Bool) (N : Nat) :
    ∀ (fuel : Nat) (f g : Nat → Int) (j : Nat), 1 ≤ j → j ≤ N →
    (∀ i, 1 ≤ i → i ≤ N → f i = g i) →
    ∀ k, 1 ≤ k → k ≤ N → bubbleUpFuel before fuel f j k = bubbleUpFuel before fuel g j k := by
  intro fuel
  induction fuel with
  | zero => intro f g j h1 h2 hfg k hk1 hk2; exact hfg k hk1 hk2
  | succ fuel ih =>
    intro f g j h1 h2 hfg k hk1 hk2
    simp only [bubbleUpFuel]
    have hcond : (1 < j ∧ before (f j) (f (j / 2)) = true)
        ↔ (1 < j ∧ before (g j) (g (j / 2)) = true) := by
      constructor
      · rintro ⟨hj, hb⟩
        refine ⟨hj, ?_⟩
        rw [← hfg j h1 h2, ← hfg (j / 2) (by omega) (by omega)]
        exact hb
      · rintro ⟨hj, hb⟩
        refine ⟨hj, ?_⟩
        rw [hfg j h1 h2, hfg (j / 2) (by omega) (by omega)]
        exact hb
    split_ifs with hc1 hc2 hc2
    · obtain ⟨hj, -⟩ := hc1
      refine ih _ _ (j / 2) (by omega) (by omega) ?_ k hk1 hk2
      intro i hi1 hi2
      by_cases hij : i = j
      · rw [hij, swapSlots_left f j (j / 2) (by omega), swapSlots_left g j (j / 2) (by omega)]
        exact hfg (j / 2) (by omega) (by omega)
      · by_cases hip : i = j / 2
        · rw [hip, swapSlots_right f j (j / 2), swapSlots_right g j (j / 2)]
          exact hfg j h1 h2
        · rw [swapSlots_other f j (j / 2) i (by omega) (by omega),
            swapSlots_other g j (j / 2) i (by omega) (by omega)]
          exact hfg i hi1 hi2
    · exact absurd (hcond.mp hc1) hc2
    · exact absurd (hcond.mpr hc2) hc1
    · exact hfg k hk1 hk2

theorem bubbleDownFuel_congr (before : Int → Int → Bool) (n N : Nat) (hnN : n ≤ N) :
    ∀ (fuel : Nat) (f g : Nat → Int) (j : Nat), 1 ≤ j →
    (∀ i, 1 ≤ i → i ≤ N → f i = g i) →
    ∀ k, 1 ≤ k → k ≤ N →
    bubbleDownFuel before n fuel f j k = bubbleDownFuel before n fuel g j k := by
  intro fuel
  induction fuel with
  | zero => intro f g j h1 hfg k hk1 hk2; exact hfg k hk1 hk2
  | succ fuel ih =>
    intro f g j h1 hfg k hk1 hk2
    simp only [bubbleDownFuel]
    by_cases hc : 1 ≤ j ∧ j ≤ n / 2
    · rw [if_pos hc, if_pos hc]
      obtain ⟨-, hj2⟩ := hc
      have hfj : f j = g j := hfg j h1 (by omega)
      have hfl : f (j * 2) = g (j * 2) := hfg (j * 2) (by omega) (by omega)
      have hswapl : ∀ i, 1 ≤ i → i ≤ N →
          swapSlots f j (j * 2) i = swapSlots g j (j * 2) i := by
        intro i hi1 hi2
        by_cases hij : i = j
        · rw [hij, swapSlots_left f j (j * 2) (by omega), swapSlots_left g j (j * 2) (by omega)]
          exact hfl
        · by_cases hil : i = j * 2
          · rw [hil, swapSlots_right f j (j * 2), swapSlots_right g j (j * 2)]
            exact hfj
          · rw [swapSlots_other f j (j * 2) i (by omega) (by omega),
              swapSlots_other g j (j * 2) i (by omega) (by omega)]
            exact hfg i hi1 hi2
      by_cases h2 : j * 2 + 1 > n
      · rw [if_pos h2, if_pos h2, hfl, hfj]
        by_cases h3 : before (g (j * 2)) (g j) = true
        · rw [if_pos h3, if_pos h3]
          exact ih _ _ (j * 2) (by omega) hswapl k hk1 hk2
        · rw [if_neg h3, if_neg h3]
          exact hfg k hk1 hk2
      · have hfr : f (j * 2 + 1) = g (j * 2 + 1) := hfg (j * 2 + 1) (by omega) (by omega)
        rw [if_neg h2, if_neg h2, hfl, hfj, hfr]
        by_cases h4 : before (g (j * 2)) (g j) = true ∨ before (g (j * 2 + 1)) (g j) = true
        · rw [if_pos h4, if_pos h4]
          by_cases h5 : before (g (j * 2)) (g (j * 2 + 1)) = true
          · rw [if_pos h5, if_pos h5]
            exact ih _ _ (j * 2) (by omega) hswapl k hk1 hk2
          · rw [if_neg h5, if_neg h5]
            refine ih _ _ (j * 2 + 1) (by omega) ?_ k hk1 hk2
            intro i hi1 hi2
            by_cases hij : i = j
            · rw [hij, swapSlots_left f j (j * 2 + 1) (by omega),
                swapSlots_left g j (j * 2 + 1) (by omega)]
              exact hfr
            · by_cases hir : i = j * 2 + 1
              · rw [hir, swapSlots_right f j (j * 2 + 1), swapSlots_right g j (j * 2 + 1)]
                exact hfj
              · rw [swapSlots_other f j (j * 2 + 1) i (by omega) (by omega),
                  swapSlots_other g j (j * 2 + 1) i (by omega) (by omega)]
                exact hfg i hi1 hi2
        · rw [if_neg h4, if_neg h4]
          exact hfg k hk1 hk2
    · rw [if_neg hc, if_neg hc]
      exact hfg k hk1 hk2

theorem tsLoop_congr (n : Nat) :
    ∀ (rem i : Nat) (f g : Nat → Int), (∀ k, 1 ≤ k → k ≤ n → f k = g k) →
    1 ≤ i → i + rem ≤ n + 1 →
    tsLoop f n i rem = tsLoop g n i rem := by
  intro rem
  induction rem with
  | zero => intro i f g h h1 h2; rfl
  | succ rem ih =>
    intro i f g h h1 h2
    simp only [tsLoop]
    rw [h i h1 (by omega), ih (i + 1) f g h (by omega) (by omega)]

/-! ### Stale storage is unobservable: the operations respect `EquivUpTo` -/

theorem equiv_peek {s t : Heap} (h : EquivUpTo s t) : peek s = peek t := by
  obtain ⟨hcap, hsz, hsl⟩ := h
  unfold peek
  by_cases hc : s.realSize < 1
  · rw [if_pos hc, if_pos (by omega)]
  · rw [if_neg hc, if_neg (by omega), hsl 1 (by omega) (by omega)]

theorem equiv_size {s t : Heap} (h : EquivUpTo s t) : size s = size t := h.2.1

theorem equiv_toString {s t : Heap} (h : EquivUpTo s t) :
    Heap.toString s = Heap.toString t := by
  obtain ⟨hcap, hsz, hsl⟩ := h
  unfold Heap.toString
  rw [← hsz]
  by_cases hc : s.realSize = 0
  · rw [if_pos hc, if_pos hc]
  · rw [if_neg hc, if_neg hc,
      tsLoop_congr s.realSize s.realSize 1 s.heap t.heap hsl (by omega) (by omega)]

theorem equiv_add (before : Int → Int → Bool) (e : Int) {s t : Heap} (h : EquivUpTo s t) :
    (add before e s).2 = (add before e t).2 ∧
    EquivUpTo (add before e s).1 (add before e t).1 := by
  obtain ⟨hcap, hsz, hsl⟩ := h
  unfold HeapModel.add
  by_cases hc : s.realSize + 1 > s.heapSize
  · rw [if_pos hc, if_pos (by omega)]
    exact ⟨rfl, hcap, hsz, hsl⟩
  · rw [if_neg hc, if_neg (by omega)]
    refine ⟨rfl, hcap, by dsimp only; omega, ?_⟩
    intro i h1 h2
    have h2a : i ≤ s.realSize + 1 := h2
    dsimp only
    unfold bubbleUp
    rw [← hsz]
    refine bubbleUpFuel_congr before (s.realSize + 1) (s.realSize + 1) _ _ (s.realSize + 1)
      (by omega) (le_refl _) ?_ i h1 h2a
    intro k hk1 hk2
    by_cases hk : k = s.realSize + 1
    · rw [hk, writeSlot_self, writeSlot_self]
    · rw [writeSlot_other s.heap _ e k hk, writeSlot_other t.heap _ e k hk]
      exact hsl k hk1 (by omega)

theorem equiv_pop (before : Int → Int → Bool) (sentinel : Int) {s t : Heap}
    (h : EquivUpTo s t) :
    (pop before sentinel s).1 = (pop before sentinel t).1 ∧
    (pop before sentinel s).2.2 = (pop before sentinel t).2.2 ∧
    EquivUpTo (pop before sentinel s).2.1 (pop before sentinel t).2.1 := by
  obtain ⟨hcap, hsz, hsl⟩ := h
  unfold HeapModel.pop
  by_cases hc : s.realSize < 1
  · rw [if_pos hc, if_pos (by omega)]
    exact ⟨rfl, rfl, hcap, hsz, hsl⟩
  · rw [if_neg hc, if_neg (by omega)]
    refine ⟨hsl 1 (by omega) (by omega), rfl, hcap, by dsimp only; omega, ?_⟩
    intro i h1 h2
    have h2a : i ≤ s.realSize - 1 := h2
    dsimp only
    unfold bubbleDown
    rw [← hsz]
    refine bubbleDownFuel_congr before (s.realSize - 1) s.realSize (by omega)
      (s.realSize - 1) _ _ 1 (le_refl 1) ?_ i h1 (by omega)
    intro k hk1 hk2
    by_cases hk : k = 1
    · rw [hk, writeSlot_self, writeSlot_self]
      exact hsl s.realSize (by omega) (le_refl _)
    · rw [writeSlot_other s.heap 1 _ k hk, writeSlot_other t.heap 1 _ k hk]
      exact hsl k hk1 hk2

theorem equiv_qstep (before : Int → Int → Bool) (sentinel : Int) (op : QOp) {s t : Heap}
    (h : EquivUpTo s t) :
    (qstep before sentinel s op).2 = (qstep before sentinel t op).2 ∧
    EquivUpTo (qstep before sentinel s op).1 (qstep before sentinel t op).1 := by
  cases op with
  | add e =>
    obtain ⟨h1, h2⟩ := equiv_add before e h
    exact ⟨by simp only [qstep]; rw [h1], h2⟩
  | pop =>
    obtain ⟨h1, h2, h3⟩ := equiv_pop before sentinel h
    exact ⟨by simp only [qstep]; rw [h1, h2], h3⟩
  | peek =>
    refine ⟨?_, h⟩
    simp only [qstep]
    rw [equiv_peek h]
  | size =>
    refine ⟨?_, h⟩
    simp only [qstep]
    rw [equiv_size h]
  | display =>
    refine ⟨?_, h⟩
    simp only [qstep]
    rw [equiv_toString h]

theorem equiv_qrun (before : Int → Int → Bool) (sentinel : Int) :
    ∀ (ops : List QOp) (s t : Heap), EquivUpTo s t →
    qrun before sentinel ops s = qrun before sentinel ops t := by
  intro ops
  induction ops with
  | nil => intro s t h; rfl
  | cons op ops ih =>
    intro s t h
    obtain ⟨h1, h2⟩ := equiv_qstep before sentinel op h
    simp only [qrun]
    rw [h1, ih _ _ h2]

/-- Counterexample to C10 as stated: two heap states that agree on count
(zero) and, vacuously, on the slots `1 .. count`, but have different
capacities, are distinguished by a subsequent `add`: the capacity-zero heap
signals `CapacityExceeded` while the capacity-one heap accepts the element
(and their sizes differ afterwards). -/
theorem claim_C10_counterexample :
    AgreeCountSlots (mkHeap 0) (mkHeap 1) ∧
    (MaxHeap.add 0 (mkHeap 0)).2 = some HeapError.capacityExceeded ∧
    (MaxHeap.add 0 (mkHeap 1)).2 = none ∧
    size (MaxHeap.add 0 (mkHeap 0)).1 ≠ size (MaxHeap.add 0 (mkHeap 1)).1 := by
  refine ⟨⟨rfl, ?_⟩, rfl, rfl, by decide⟩
  intro i h1 h2
  exact absurd (le_trans h1 h2) (by decide)

/-- C10 as amended: any two heap states with the same capacity that agree on
count and on the storage slots `1 .. count` (slot 0 and the stale slots
beyond count may differ) produce identical results for `peek`, `pop`,
`size` and `toString`, remain in agreement after a `pop`, and produce
identical observations for every subsequent sequence of calls of the public
interface.  Stated for every comparison and sentinel, so it covers both
variants. -/
theorem claim_C10_stale_storage_unobservable (before : Int → Int → Bool) (sentinel : Int)
    (s t : Heap) (ops : List QOp) (h : EquivUpTo s t) :
    peek s = peek t ∧
    size s = size t ∧
    Heap.toString s = Heap.toString t ∧
    (pop before sentinel s).1 = (pop before sentinel t).1 ∧
    (pop before sentinel s).2.2 = (pop before sentinel t).2.2 ∧
    EquivUpTo (pop before sentinel s).2.1 (pop before sentinel t).2.1 ∧
    qrun before sentinel ops s = qrun before sentinel ops t := by
  obtain ⟨p1, p2, p3⟩ := equiv_pop before sentinel h
  exact ⟨equiv_peek h, equiv_size h, equiv_toString h, p1, p2, p3,
    equiv_qrun before sentinel ops s t h⟩

/-- Witness for the amended C10: after popping one of two elements, the stale
copy left in slot 2 makes the state differ from the fresh single-element
heap, yet every subsequent observation agrees. -/
theorem claim_C10_stale_storage_witness :
    (MaxHeap.pop (MaxHeap.add 9 (MaxHeap.add 5 (mkHeap 2)).1).1).2.1.heap 2
      ≠ (MaxHeap.add 5 (mkHeap 2)).1.heap 2 ∧
    EquivUpTo (MaxHeap.pop (MaxHeap.add 9 (MaxHeap.add 5 (mkHeap 2)).1).1).2.1
      (MaxHeap.add 5 (mkHeap 2)).1 ∧
    qrun maxBefore INT_MIN [QOp.add 7, QOp.pop, QOp.display, QOp.size, QOp.peek, QOp.pop]
        (MaxHeap.pop (MaxHeap.add 9 (MaxHeap.add 5 (mkHeap 2)).1).1).2.1
      = qrun maxBefore INT_MIN [QOp.add 7, QOp.pop, QOp.display, QOp.size, QOp.peek, QOp.pop]
        (MaxHeap.add 5 (mkHeap 2)).1 :=
  have hequiv : EquivUpTo (MaxHeap.pop (MaxHeap.add 9 (MaxHeap.add 5 (mkHeap 2)).1).1).2.1
      (MaxHeap.add 5 (mkHeap 2)).1 :=
    ⟨by decide, by decide, fun i h1 h2 => by
      have h2a : i ≤ 1 := h2
      have hi : i = 1 := by omega
      rw [hi]
      decide⟩
  ⟨by decide, hequiv,
    (claim_C10_stale_storage_unobservable maxBefore INT_MIN
      (MaxHeap.pop (MaxHeap.add 9 (MaxHeap.add 5 (mkHeap 2)).1).1).2.1
      (MaxHeap.add 5 (mkHeap 2)).1
      [QOp.add 7, QOp.pop, QOp.display, QOp.size, QOp.peek, QOp.pop]
      hequiv).2.2.2.2.2.2⟩

end HeapModel
